import Mathlib

/-!
Verification of the heuristic résumé parser (`heuristic_parse`) and renderer
(`render_resume_text`) of `src/backend/resume.py`, shallowly embedded over
`List Char`.  Python strings are modelled as lists of characters; the regular
expressions of the source are implemented as explicit character-level matchers
with Python's leftmost/greedy semantics; Python `set` values are modelled as
canonically sorted, deduplicated lists (set membership is preserved exactly;
Python's hash-bucket iteration order, which is fixed within a process, is
represented by the sorted order).
-/

namespace ResumePro

/-- Python strings, modelled as lists of characters. -/
abbrev Str := List Char

/-- Python's `\s` / `str.strip()` whitespace, ASCII fragment. -/
def isSpace (c : Char) : Bool :=
  c == ' ' || c == '\t' || c == '\n' || c == '\r' || c == '\x0b' || c == '\x0c'

/-- Characters treated as line terminators by Python's `str.splitlines`. -/
def isLineBreak (c : Char) : Bool :=
  c == '\n' || c == '\r' || c == '\x0b' || c == '\x0c' || c == '\x1c' ||
  c == '\x1d' || c == '\x1e' || c == '\u0085' || c == '\u2028' || c == '\u2029'

/-- Python `str.lstrip()`. -/
def lstrip (s : Str) : Str := s.dropWhile isSpace

/-- Python `str.rstrip()`. -/
def rstrip (s : Str) : Str := ((s.reverse).dropWhile isSpace).reverse

/-- Python `str.strip()`. -/
def stripWs (s : Str) : Str := rstrip (lstrip s)

/-- Collapse every run of whitespace into a single `' '`; the flag records
whether the previous character was part of a whitespace run. -/
def collapseAux : Bool → Str → Str
  | _, [] => []
  | prevSpace, c :: rest =>
    if isSpace c then
      (if prevSpace then collapseAux true rest else ' ' :: collapseAux true rest)
    else c :: collapseAux false rest

/-- `_norm` of the source: `re.sub(r"\s+", " ", s.strip())`. -/
def pyNorm (s : Str) : Str := collapseAux false (stripWs s)

/-- Worker for `pySplitlines`; the accumulator holds the current line reversed. -/
def splitlinesGo : Str → Str → List Str
  | acc, [] => [acc.reverse]
  | acc, '\r' :: '\n' :: rest =>
    acc.reverse :: (if rest.isEmpty then [] else splitlinesGo [] rest)
  | acc, c :: rest =>
    if isLineBreak c then
      acc.reverse :: (if rest.isEmpty then [] else splitlinesGo [] rest)
    else splitlinesGo (c :: acc) rest

/-- Python `str.splitlines()` (no trailing empty line for a final terminator,
`[]` on the empty string). -/
def pySplitlines (s : Str) : List Str := if s.isEmpty then [] else splitlinesGo [] s

/-- Python `str.split("\n")`: always at least one (possibly empty) field. -/
def splitNl : Str → List Str
  | [] => [[]]
  | '\n' :: rest => [] :: splitNl rest
  | c :: rest =>
    match splitNl rest with
    | [] => [[c]]
    | l :: ls => (c :: l) :: ls

/-- `text.replace("\r\n", "\n").replace("\r", "\n")` of the source. -/
def canonNl : Str → Str
  | [] => []
  | '\r' :: '\n' :: rest => '\n' :: canonNl rest
  | '\r' :: rest => '\n' :: canonNl rest
  | c :: rest => c :: canonNl rest

/-- Worker for `pySplitWs`. -/
def splitWsGo : Str → Str → List Str
  | acc, [] => if acc.isEmpty then [] else [acc.reverse]
  | acc, c :: rest =>
    if isSpace c then
      (if acc.isEmpty then splitWsGo [] rest else acc.reverse :: splitWsGo [] rest)
    else splitWsGo (c :: acc) rest

/-- Python `str.split()` with no argument: split on whitespace runs, no empties. -/
def pySplitWs (s : Str) : List Str := splitWsGo [] s

/-- Python `sep.join(parts)`. -/
def joinWith (sep : Str) : List Str → Str
  | [] => []
  | [x] => x
  | x :: y :: rest => x ++ sep ++ joinWith sep (y :: rest)

/-- Python `str.lower()` (ASCII). -/
def toLowerStr (s : Str) : Str := s.map Char.toLower

/-- Python `str.upper()` (ASCII). -/
def toUpperStr (s : Str) : Str := s.map Char.toUpper

/-- Python `str.isupper()` (ASCII): at least one letter and no lowercase letter. -/
def pyIsUpper (s : Str) : Bool :=
  s.any (fun c => c.isAlpha) && s.all (fun c => !(c.isLower))

/-- Python `pat in s`: substring containment. -/
def hasSubstr (s pat : Str) : Bool :=
  (s.tails).any (fun t => List.isPrefixOf pat t)

/-- Python `str.strip(" :")`. -/
def isColonSpace (c : Char) : Bool := c == ' ' || c == ':'

def stripCS (s : Str) : Str :=
  (((s.dropWhile isColonSpace).reverse).dropWhile isColonSpace).reverse

/-! ### Section classifier (`UPPER_HDRS`, `_detect_section`) -/

inductive SectionKey where
  | summary
  | experience
  | education
  | skills
  | certifications
  | projects
deriving DecidableEq, Repr

def expLex : List Str :=
  [("experience").data, ("work experience").data, ("professional experience").data,
   ("employment history").data, ("career history").data]

def eduLex : List Str := [("education").data, ("academic history").data, ("academics").data]

def skillsLex : List Str := [("skills").data, ("technical skills").data, ("key skills").data]

def certsLex : List Str :=
  [("certifications").data, ("licenses").data, ("licences").data, ("certs").data]

def projLex : List Str :=
  [("projects").data, ("selected projects").data, ("notable projects").data]

def summaryLex : List Str :=
  [("summary").data, ("professional summary").data, ("profile").data, ("objective").data]

/-- `_detect_section` of the source. -/
def detectSection (line : Str) : Option SectionKey :=
  let t := stripCS (toLowerStr (pyNorm line))
  if t ∈ expLex then some .experience
  else if t ∈ eduLex then some .education
  else if t ∈ skillsLex then some .skills
  else if t ∈ certsLex then some .certifications
  else if t ∈ projLex then some .projects
  else if t ∈ summaryLex then some .summary
  else if pyIsUpper line && line.length ≤ 40 then
    (if hasSubstr line (("EDUCATION").data) then some .education
     else if hasSubstr line (("SKILL").data) then some .skills
     else if hasSubstr line (("CERT").data) || hasSubstr line (("LICENSE").data) ||
             hasSubstr line (("LICENCE").data) then some .certifications
     else if hasSubstr line (("PROJECT").data) then some .projects
     else if hasSubstr line (("SUMMARY").data) || hasSubstr line (("PROFILE").data) ||
             hasSubstr line (("OBJECTIVE").data) then some .summary
     else if hasSubstr line (("EXPERIENCE").data) || hasSubstr line (("EMPLOY").data) ||
             hasSubstr line (("CAREER").data) then some .experience
     else none)
  else none

/-! ### Bullets (`re.match(r"^\s*(?:[-•*]|•|•)\s+(.*)$", l)`) -/

def bulletMarker (c : Char) : Bool := c == '-' || c == '•' || c == '*'

/-- If `l` matches the bullet pattern, return the captured remainder (the text
after the greedy whitespace run that follows the marker), else `none`. -/
def bulletSplit (l : Str) : Option Str :=
  match l.dropWhile isSpace with
  | [] => none
  | c :: rest =>
    if bulletMarker c then
      (match rest with
       | d :: _ => if isSpace d then some (rest.dropWhile isSpace) else none
       | [] => none)
    else none

def isBulletLine (l : Str) : Bool := (bulletSplit l).isSome

/-- `_collect_bullets` of the source. -/
def collectBullets (lines : List Str) : List Str :=
  lines.filterMap (fun l =>
    match bulletSplit l with
    | some cap => (let bb := pyNorm cap; if bb.isEmpty then none else some bb)
    | none => none)

/-! ### Header scanning (`_first_nonempty_lines`) -/

def firstNonemptyLines (text : Str) (n : Nat) : List Str :=
  (((pySplitlines text).map stripWs).filter (fun l => !l.isEmpty)).take n

/-! ### Name guessing (`_likely_name`, `_guess_name`) -/

/-- `re.fullmatch(r"[A-Za-z][A-Za-z \-'.]{1,80}", s)` of `_only_letters_and_space`. -/
def nameChar (c : Char) : Bool :=
  c.isAlpha || c == ' ' || c == '-' || c == '\'' || c == '.'

def onlyLettersAndSpace (s : Str) : Bool :=
  match s with
  | [] => false
  | c :: rest => c.isAlpha && (1 ≤ rest.length && rest.length ≤ 80) && rest.all nameChar

def likelyName (line : Str) : Bool :=
  if line.isEmpty then false
  else
    let l := stripWs line
    if l.length < 3 || 80 < l.length then false
    else if pyIsUpper l && (pySplitWs l).length ≤ 4 then true
    else if onlyLettersAndSpace l &&
            ((pySplitWs l).length == 2 || (pySplitWs l).length == 3 ||
             (pySplitWs l).length == 4) then true
    else false

/-- Python `str.capitalize()`: first character upper-cased, the rest lower-cased. -/
def capWord : Str → Str
  | [] => []
  | c :: rest => Char.toUpper c :: rest.map Char.toLower

def sepSpace : Str := [' ']
def sepNl : Str := ['\n']
def sepSlash : Str := (" / ").data
def sepPipe : Str := (" | ").data
def sepCommaSpace : Str := (", ").data
def sepEmDash : Str := (" — ").data

/-- `_guess_name` of the source. -/
def guessName (text : Str) : Str :=
  match (firstNonemptyLines text 8).find? likelyName with
  | some l =>
    if pyIsUpper l then toUpperStr l
    else joinWith sepSpace ((pySplitWs l).map capWord)
  | none =>
    match firstNonemptyLines text 1 with
    | [] => pyNorm []
    | l :: _ => pyNorm l

/-! ### Contact extraction (`EMAIL_RE`, `PHONE_RE`, `_extract_contacts_from_header`) -/

/-- `\w` for the `\b` word boundaries of the year patterns (ASCII). -/
def isWordChar (c : Char) : Bool := c.isAlpha || c.isDigit || c == '_'

/-- Character class of the e-mail local part: `[A-Za-z0-9._%+\-]`. -/
def isLocalChar (c : Char) : Bool :=
  c.isAlpha || c.isDigit || c == '.' || c == '_' || c == '%' || c == '+' || c == '-'

/-- Character class of the e-mail domain: `[A-Za-z0-9.\-]`. -/
def isDomainChar (c : Char) : Bool := c.isAlpha || c.isDigit || c == '.' || c == '-'

/-- Character class of the phone body: `[\d\-\s\(\)]`. -/
def isPhoneSepChar (c : Char) : Bool :=
  c.isDigit || c == '-' || isSpace c || c == '(' || c == ')'

def yearHead (a b : Char) : Bool := (a == '1' && b == '9') || (a == '2' && b == '0')

def headIsWord : Str → Bool
  | [] => false
  | c :: _ => isWordChar c

/-- Match `\b(?:19|20)\d{2}\b` at the current position; `prevWord` tells whether
the previous character of the scanned text is a word character (for the left
boundary).  Returns the matched text and the rest. -/
def tryYear (prevWord : Bool) (s : Str) : Option (Str × Str) :=
  if prevWord then none
  else
    match s with
    | c1 :: c2 :: c3 :: c4 :: rest =>
      if yearHead c1 c2 && c3.isDigit && c4.isDigit && !headIsWord rest then
        some ([c1, c2, c3, c4], rest)
      else none
    | _ => none

/-- Match `\b(?:19|20)\d{2}\s*[-–]\s*(?:19|20)\d{2}\b` at the current position;
returns the rest after the match. -/
def tryYearRange (prevWord : Bool) (s : Str) : Option Str :=
  if prevWord then none
  else
    match s with
    | c1 :: c2 :: c3 :: c4 :: rest =>
      if yearHead c1 c2 && c3.isDigit && c4.isDigit then
        (match rest.dropWhile isSpace with
         | d :: r2 =>
           if d == '-' || d == '–' then
             (match r2.dropWhile isSpace with
              | e1 :: e2 :: e3 :: e4 :: r4 =>
                if yearHead e1 e2 && e3.isDigit && e4.isDigit && !headIsWord r4 then
                  some r4
                else none
              | _ => none)
           else none
         | [] => none)
      else none
    | _ => none

/-- `re.sub` of the year-range pattern with `" "`; the fuel is the length of the
scanned text (every step consumes at least one character). -/
def subYearRangesGo : Nat → Bool → Str → Str
  | 0, _, s => s
  | _ + 1, _, [] => []
  | fuel + 1, prevWord, c :: rest =>
    match tryYearRange prevWord (c :: rest) with
    | some r => ' ' :: subYearRangesGo fuel true r
    | none => c :: subYearRangesGo fuel (isWordChar c) rest

def subYearRanges (s : Str) : Str := subYearRangesGo s.length false s

/-- `re.sub(r"\b(?:19|20)\d{2}\b", " ", s)`. -/
def subYearsGo : Nat → Bool → Str → Str
  | 0, _, s => s
  | _ + 1, _, [] => []
  | fuel + 1, prevWord, c :: rest =>
    match tryYear prevWord (c :: rest) with
    | some (_, r) => ' ' :: subYearsGo fuel true r
    | none => c :: subYearsGo fuel (isWordChar c) rest

def subYears (s : Str) : Str := subYearsGo s.length false s

/-- `re.search(r"\b(20|19)\d{2}\b", s)`: leftmost match. -/
def findYearGo : Bool → Str → Option Str
  | _, [] => none
  | prevWord, c :: rest =>
    match tryYear prevWord (c :: rest) with
    | some (m, _) => some m
    | none => findYearGo (isWordChar c) rest

def findYear (s : Str) : Option Str := findYearGo false s

def lettersRun (l : Str) : Nat := (l.takeWhile Char.isAlpha).length

/-- Backtracking point of the e-mail domain `[A-Za-z0-9.\-]+\.[A-Za-z]{2,}`:
inside the maximal domain-character run `d`, find the rightmost index `i ≥ 1`
holding `'.'` followed by at least two letters; the result is the number of
characters of `d` consumed by the match. -/
def domSplitAux : Nat → Str → Option Nat
  | _, [] => none
  | i, c :: rest =>
    match domSplitAux (i + 1) rest with
    | some r => some r
    | none =>
      if c == '.' && 1 ≤ i && 2 ≤ lettersRun rest then some (i + 1 + lettersRun rest)
      else none

/-- Match `EMAIL_RE` at the current position; returns the match and the rest. -/
def emailMatchAt (s : Str) : Option (Str × Str) :=
  let loc := s.takeWhile isLocalChar
  if loc.isEmpty then none
  else
    match s.dropWhile isLocalChar with
    | '@' :: s2 =>
      (let dom := s2.takeWhile isDomainChar
       match domSplitAux 0 dom with
       | some used => some (loc ++ '@' :: dom.take used, dom.drop used ++ s2.dropWhile isDomainChar)
       | none => none)
    | _ => none

/-- `EMAIL_RE.findall`: scan left to right, non-overlapping matches. -/
def findEmailsGo : Nat → Str → List Str
  | 0, _ => []
  | _ + 1, [] => []
  | fuel + 1, c :: rest =>
    match emailMatchAt (c :: rest) with
    | some (m, r) => m :: findEmailsGo fuel r
    | none => findEmailsGo fuel rest

def findEmails (s : Str) : List Str := findEmailsGo s.length s

/-- Index of the last digit of a string, if any. -/
def lastDigitIdx : Str → Option Nat
  | [] => none
  | c :: rest =>
    match lastDigitIdx rest with
    | some j => some (j + 1)
    | none => if c.isDigit then some 0 else none

/-- Match `PHONE_RE = \+?\d[\d\-\s\(\)]{6,}\d` at the current position: after
the optional plus and the leading digit, the greedy body backtracks to the last
digit of the separator-class run at index at least 6. -/
def phoneMatchAt (s : Str) : Option (Str × Str) :=
  let (plusPart, s1) :=
    match s with
    | '+' :: rest => (('+' :: ([] : Str)), rest)
    | _ => (([] : Str), s)
  match s1 with
  | [] => none
  | d :: rest =>
    if d.isDigit then
      (let run := rest.takeWhile isPhoneSepChar
       let after := rest.dropWhile isPhoneSepChar
       match lastDigitIdx run with
       | some j =>
         if 6 ≤ j then some (plusPart ++ d :: run.take (j + 1), run.drop (j + 1) ++ after)
         else none
       | none => none)
    else none

/-- `PHONE_RE.findall`. -/
def findPhonesGo : Nat → Str → List Str
  | 0, _ => []
  | _ + 1, [] => []
  | fuel + 1, c :: rest =>
    match phoneMatchAt (c :: rest) with
    | some (m, r) => m :: findPhonesGo fuel r
    | none => findPhonesGo fuel rest

def findPhones (s : Str) : List Str := findPhonesGo s.length s

/-- A Python `set` of strings, read out in sorted order (Python's `sorted(set)`
is exactly the sorted deduplicated list; the sets of the source are only ever
iterated through `sorted(...)` or — for skills — in an order the spec leaves
irrelevant, which we canonicalise to sorted order). -/
def setToSortedList (l : List Str) : List Str :=
  List.insertionSort (fun a b => a ≤ b) l.dedup

/-- `len(re.sub(r"\D", "", m))`. -/
def countDigits (s : Str) : Nat := (s.filter (fun c => c.isDigit)).length

/-- The filter applied to each `PHONE_RE` match:
`len(digits) >= 7 and "/" not in m`. -/
def phoneOk (m : Str) : Bool := 7 ≤ countDigits m && !(m.contains '/')

def headerJoined (text : Str) : Str := joinWith sepNl (firstNonemptyLines text 20)

def headerCleaned (text : Str) : Str := subYears (subYearRanges (headerJoined text))

def headerEmails (text : Str) : List Str := setToSortedList (findEmails (headerCleaned text))

def headerPhones (text : Str) : List Str :=
  setToSortedList (((findPhones (headerCleaned text)).filter phoneOk).map pyNorm)

/-- `_extract_contacts_from_header` of the source. -/
def extractContactsFromHeader (text : Str) : Str :=
  let parts : List Str :=
    (if (headerEmails text).isEmpty then [] else [joinWith sepSlash (headerEmails text)]) ++
    (if (headerPhones text).isEmpty then [] else [joinWith sepSlash (headerPhones text)])
  joinWith sepPipe parts

/-! ### Section segmentation (`_parse_sections`) -/

structure Sections where
  summary : List Str
  experience : List Str
  education : List Str
  skills : List Str
  certifications : List Str
  projects : List Str
deriving DecidableEq, Repr

def emptySections : Sections := ⟨[], [], [], [], [], []⟩

def addToSection (s : Sections) (k : SectionKey) (l : Str) : Sections :=
  match k with
  | .summary => { s with summary := s.summary ++ [l] }
  | .experience => { s with experience := s.experience ++ [l] }
  | .education => { s with education := s.education ++ [l] }
  | .skills => { s with skills := s.skills ++ [l] }
  | .certifications => { s with certifications := s.certifications ++ [l] }
  | .projects => { s with projects := s.projects ++ [l] }

/-- One step of the `_parse_sections` walk. -/
def sectionsStep (st : Option SectionKey × Sections) (raw : Str) :
    Option SectionKey × Sections :=
  let line := rstrip raw
  if (stripWs line).isEmpty then
    (match st.1 with
     | some k => (st.1, addToSection st.2 k [])
     | none => st)
  else
    match detectSection line with
    | some k => (some k, st.2)
    | none =>
      match st.1 with
      | some k => (st.1, addToSection st.2 k line)
      | none => (st.1, addToSection st.2 .summary line)

/-- `_parse_sections` of the source. -/
def parseSections (text : Str) : Sections :=
  ((splitNl (canonNl text)).foldl sectionsStep (none, emptySections)).2

/-! ### Summary collection (the loop of `heuristic_parse`) -/

def collectSummary (acc : List Str) : List Str → List Str
  | [] => acc
  | l :: rest =>
    if (stripWs l).isEmpty then
      (if acc.isEmpty then collectSummary acc rest else acc)
    else if isBulletLine l then collectSummary acc rest
    else
      let acc2 := acc ++ [pyNorm l]
      if 600 < (joinWith sepSpace acc2).length then acc2 else collectSummary acc2 rest

/-! ### Education (`_parse_education`) -/

structure EduEntry where
  institution : Str
  degree : Str
  year : Str
deriving DecidableEq, Repr

/-- `" ".join(_norm(x) for x in buf if x.strip())`. -/
def eduChunkStr (buf : List Str) : Str :=
  joinWith sepSpace ((buf.filter (fun x => !(stripWs x).isEmpty)).map pyNorm)

def parseEduGo : List Str → List Str → List EduEntry
  | buf, [] =>
    if buf.isEmpty then []
    else [⟨(eduChunkStr buf).take 200, [], []⟩]
  | buf, l :: rest =>
    if (stripWs l).isEmpty then
      (if buf.isEmpty then parseEduGo [] rest
       else
         (if (eduChunkStr buf).isEmpty then parseEduGo [] rest
          else ⟨(eduChunkStr buf).take 200, [], []⟩ :: parseEduGo [] rest))
    else parseEduGo (buf ++ [l]) rest

def degreeTokens : List Str :=
  [("bsc").data, ("msc").data, ("mba").data, ("phd").data, ("ba").data, ("ma").data,
   ("b\\.a\\.").data, ("m\\.a\\.").data, ("bba").data, ("be").data, ("me").data,
   ("m\\.sc\\.").data, ("b\\.sc\\.").data]

def universityHints : List Str :=
  [("university").data, ("institute").data, ("college").data, ("school").data,
   ("insead").data, ("oxford").data, ("harvard").data, ("stanford").data]

/-- The enrichment loop of `_parse_education` (the degree hook never assigns a
non-empty value in the source; the year is the first `\b(20|19)\d{2}\b` match). -/
def enrichEdu (e : EduEntry) : EduEntry :=
  let low := toLowerStr e.institution
  let e1 := if degreeTokens.any (fun tok => hasSubstr low tok) then { e with degree := [] } else e
  let e2 :=
    match findYear e1.institution with
    | some y => { e1 with year := y }
    | none => e1
  if universityHints.any (fun h => hasSubstr low h) && e2.degree.isEmpty then
    { e2 with degree := [] }
  else e2

def parseEducation (lines : List Str) : List EduEntry :=
  (parseEduGo [] lines).map enrichEdu

/-! ### Skills (`_parse_skills`) -/

/-- `re.split(r"[、;,/|]", l)`: the delimiter class. -/
def delimChar (c : Char) : Bool :=
  c == '、' || c == ';' || c == ',' || c == '/' || c == '|'

def splitDelim : Str → List Str
  | [] => [[]]
  | c :: rest =>
    if delimChar c then [] :: splitDelim rest
    else
      match splitDelim rest with
      | [] => [[c]]
      | l :: ls => (c :: l) :: ls

/-- The items added to the skills set, in source order. -/
def skillItems (lines : List Str) : List Str :=
  lines.foldr
    (fun l acc =>
      if (stripWs l).isEmpty then acc
      else
        match bulletSplit l with
        | some cap => (let val := stripWs cap; if val.isEmpty then acc else pyNorm val :: acc)
        | none =>
          (((splitDelim l).map stripWs).filter (fun p => !p.isEmpty)).map pyNorm ++ acc)
    []

def parseSkills (lines : List Str) : List Str :=
  (setToSortedList (skillItems lines)).filter (fun s => !s.isEmpty)

/-! ### Certifications -/

/-- `re.sub(r"^\s*(?:[-•*])\s+", "", l)`. -/
def stripBulletPrefix (l : Str) : Str :=
  match bulletSplit l with
  | some cap => cap
  | none => l

def parseCerts (lines : List Str) : List Str :=
  (lines.filter (fun l => !(stripWs l).isEmpty)).map (fun l => pyNorm (stripBulletPrefix l))

/-! ### The orchestrator (`heuristic_parse`) and renderer (`render_resume_text`) -/

structure WorkEntry where
  job_title : Str
  company : Str
  start_date : Str
  end_date : Str
  achievements : List Str
deriving DecidableEq, Repr

structure Resume where
  full_name : Str
  contact_info : Str
  summary : Str
  work_experience : List WorkEntry
  education : List EduEntry
  skills : List Str
  certifications : List Str
deriving DecidableEq, Repr

/-- The body of `heuristic_parse` after `sections = _parse_sections(text)`. -/
def assembleFromSections (text : Str) (sections : Sections) : Resume :=
  let expBullets := collectBullets sections.experience
  { full_name := guessName text
    contact_info := extractContactsFromHeader text
    summary := (pyNorm (joinWith sepSpace (collectSummary [] sections.summary))).take 600
    work_experience := if expBullets.isEmpty then [] else [⟨[], [], [], [], expBullets⟩]
    education := parseEducation sections.education
    skills := parseSkills sections.skills
    certifications := parseCerts sections.certifications }

/-- `heuristic_parse` of the source. -/
def heuristic_parse (text : Str) : Resume :=
  assembleFromSections text (parseSections text)

/-- The `EDUCATION` block of `render_resume_text` for one entry:
`" — ".join` of the non-empty parts, preceded by a blank line and the
`EDUCATION` header, and omitted entirely when all parts are empty. -/
def renderEduBlock (e : EduEntry) : List Str :=
  let pretty := joinWith sepEmDash (([e.degree, e.institution, e.year]).filter (fun x => !x.isEmpty))
  if pretty.isEmpty then [] else [[], ("EDUCATION").data, pretty]

/-- The block of `render_resume_text` for one work entry. -/
def renderWorkBlock (w : WorkEntry) : List Str :=
  let header := joinWith sepEmDash (([w.job_title, w.company]).filter (fun x => !x.isEmpty))
  (if header.isEmpty then [] else [[], header]) ++
    (w.achievements.map (fun a => ("• ").data ++ a))

/-- The line list built by `render_resume_text` before the final `"\n".join`. -/
def renderLines (p : Resume) : List Str :=
  (if p.full_name.isEmpty then [] else [p.full_name]) ++
  (if p.contact_info.isEmpty then [] else [p.contact_info]) ++
  (if p.summary.isEmpty then [] else [[], ("SUMMARY").data, p.summary]) ++
  (if p.skills.isEmpty then [] else [[], ("SKILLS").data, joinWith sepCommaSpace p.skills]) ++
  (p.education.foldr (fun e acc => renderEduBlock e ++ acc) []) ++
  (p.work_experience.foldr (fun w acc => renderWorkBlock w ++ acc) [])

/-- `render_resume_text` of the source. -/
def renderResumeText (p : Resume) : Str := joinWith sepNl (renderLines p)

/-- The all-empty record (`heuristic_parse("")`). -/
def emptyResume : Resume := ⟨[], [], [], [], [], [], []⟩

/-! ### Specification-side definitions (for stating the claims) -/

/-- The normalized bullet contents of a list of lines, in source order:
one entry per line matching the bullet pattern (claim C2's reading). -/
def bulletContentsOf (ls : List Str) : List Str :=
  ls.filterMap (fun l => (bulletSplit l).map pyNorm)

/-- The §3 schema invariants of a parsed record that are checkable on the
record itself: summary bounded by 600 characters, at most one work entry whose
title/company/dates are all empty, and education institutions bounded by 200
characters with an always-empty degree. -/
def conformsSchema (r : Resume) : Prop :=
  r.summary.length ≤ 600 ∧
  r.work_experience.length ≤ 1 ∧
  (∀ w ∈ r.work_experience,
      w.job_title = [] ∧ w.company = [] ∧ w.start_date = [] ∧ w.end_date = []) ∧
  (∀ e ∈ r.education, e.institution.length ≤ 200 ∧ e.degree = [])

/-- Replace the projects bucket of a segmentation result. -/
def setProjects (s : Sections) (ps : List Str) : Sections := { s with projects := ps }

/-- Blank-line-delimited chunks of a line list: maximal runs of consecutive
lines whose `strip` is non-empty (specification wording of §4.4 Education). -/
def blankChunksGo : List Str → List Str → List (List Str)
  | buf, [] => if buf.isEmpty then [] else [buf]
  | buf, l :: rest =>
    if (stripWs l).isEmpty then
      (if buf.isEmpty then blankChunksGo [] rest else buf :: blankChunksGo [] rest)
    else blankChunksGo (buf ++ [l]) rest

def blankChunks (ls : List Str) : List (List Str) := blankChunksGo [] ls

/-- The education entry the code produces for one blank-line-delimited chunk:
lines normalized and joined with a single space (bullet markers kept), cut to
200 characters; the year is the first `19xx`/`20xx` word of that string. -/
def eduSpecEntry (chunk : List Str) : EduEntry :=
  let inst := (joinWith sepSpace (chunk.map pyNorm)).take 200
  ⟨inst, [], (findYear inst).getD []⟩

/-- Invariant of the segmenter state: every line stored in a bucket is
right-stripped (either the explicit `""` blank marker or an `rstrip`ped line). -/
def SecWf (s : Sections) : Prop :=
  (∀ l ∈ s.summary, rstrip l = l) ∧ (∀ l ∈ s.experience, rstrip l = l) ∧
  (∀ l ∈ s.education, rstrip l = l) ∧ (∀ l ∈ s.skills, rstrip l = l) ∧
  (∀ l ∈ s.certifications, rstrip l = l) ∧ (∀ l ∈ s.projects, rstrip l = l)

/-! ## Theorems -/

/-- C10: lines segmented into the projects bucket contribute to no output
field: `heuristic_parse` is invariant under replacing the projects bucket of
the segmentation result by anything — the bucket is collected by
`_parse_sections` but read by no extractor. -/
theorem spec_c10 (t : Str) (ps : List Str) :
    assembleFromSections t (setProjects (parseSections t) ps) = heuristic_parse t := rfl

/-- C4: for the representative header containing `jane@example.com`,
`+1 415-555-0100` and the year range `2019 - 2021`, the extracted contact info
is exactly `jane@example.com | +1 415-555-0100` — the year range is stripped
before phone matching, the e-mail group precedes the phone group, the groups
are pipe-separated, and no digit of the year range leaks in. -/
theorem spec_c4 :
    (heuristic_parse
        (("Jane Doe\njane@example.com\n+1 415-555-0100\n2019 - 2021\nEXPERIENCE\n- Led things").data)).contact_info =
      ("jane@example.com | +1 415-555-0100").data := by decide

/-- C5 counterexample: the claim says a header token whose stripped digit
count is exactly 7 is excluded from `contact_info`, but on input `123-4567`
(7 digits) the code's `len(digits) >= 7` filter keeps it and `contact_info`
is exactly that token. -/
theorem spec_c5_counterexample :
    (heuristic_parse (("123-4567").data)).contact_info = ("123-4567").data ∧
    countDigits (("123-4567").data) = 7 := by
  constructor
  · decide
  · decide

/-- C6 counterexample: the claim says the first line is never appended to any
bucket and never appears in the summary; but `_parse_sections` walks every
line from line 1, so `John Smith` becomes the first element of the summary
bucket and appears in the summary field. -/
theorem spec_c6_counterexample :
    (parseSections (("John Smith\nSeasoned engineer.").data)).summary =
      [("John Smith").data, ("Seasoned engineer.").data] ∧
    (heuristic_parse (("John Smith\nSeasoned engineer.").data)).summary =
      ("John Smith Seasoned engineer.").data := by
  constructor
  · decide
  · decide

/-- C7 counterexample: the claim says chunk lines are bullet-stripped and
joined with `" / "` (which would give `Harvard University / BSc 2010`); the
code keeps the bullet marker and joins with a single space. -/
theorem spec_c7_counterexample :
    (heuristic_parse (("X\nEDUCATION\nHarvard University\n- BSc 2010").data)).education =
      [⟨("Harvard University - BSc 2010").data, [], ("2010").data⟩] ∧
    (("Harvard University - BSc 2010").data : Str) ≠ ("Harvard University / BSc 2010").data := by
  constructor
  · decide
  · decide

/-- C9 counterexample: `render_resume_text` never reads the certifications
field, so a parsed certification is silently dropped from the rendered text,
contradicting the claim that every non-empty extracted field's content appears
somewhere in the output. -/
theorem spec_c9_counterexample :
    (heuristic_parse (("Jane Doe\nCERTIFICATIONS\n- AWS Certified Solutions Architect").data)).certifications =
      [("AWS Certified Solutions Architect").data] ∧
    ¬ (("AWS Certified Solutions Architect").data <:+:
        renderResumeText (heuristic_parse (("Jane Doe\nCERTIFICATIONS\n- AWS Certified Solutions Architect").data))) := by
  constructor
  · decide
  · decide

/-! ### Education shape lemmas -/

theorem parseEduGo_shape (ls : List Str) : ∀ (buf : List Str), ∀ e ∈ parseEduGo buf ls,
    e.degree = [] ∧ e.year = [] ∧ e.institution.length ≤ 200 := by
  induction ls with
  | nil =>
    intro buf e he
    simp only [parseEduGo] at he
    split at he
    · simp at he
    · simp only [List.mem_singleton] at he
      subst he
      exact ⟨rfl, rfl, List.length_take_le _ _⟩
  | cons l rest ih =>
    intro buf e he
    simp only [parseEduGo] at he
    split at he
    · split at he
      · exact ih [] e he
      · split at he
        · exact ih [] e he
        · rcases List.mem_cons.mp he with h | h
          · subst h; exact ⟨rfl, rfl, List.length_take_le _ _⟩
          · exact ih [] e h
    · exact ih (buf ++ [l]) e he

theorem enrichEdu_mk (i : Str) :
    enrichEdu ⟨i, [], []⟩ = ⟨i, [], (findYear i).getD []⟩ := by
  simp only [enrichEdu]
  cases h : findYear i <;> simp [h]

theorem parseEducation_shape (lines : List Str) :
    ∀ e ∈ parseEducation lines, e.institution.length ≤ 200 ∧ e.degree = [] := by
  intro e he
  simp only [parseEducation, List.mem_map] at he
  obtain ⟨e', he', rfl⟩ := he
  obtain ⟨hd, hy, hlen⟩ := parseEduGo_shape _ [] e' he'
  have hsh : e' = ⟨e'.institution, [], []⟩ := by
    cases e'; simp_all
  rw [hsh, enrichEdu_mk]
  exact ⟨hlen, rfl⟩

/-- C1: `heuristic_parse` is total by construction; every output conforms to
the §3 schema invariants, and the empty input yields the all-empty record
(missing data yields empty defaults, not failure). -/
theorem spec_c1 :
    (∀ t : Str, conformsSchema (heuristic_parse t)) ∧ heuristic_parse [] = emptyResume := by
  constructor
  · intro t
    refine ⟨List.length_take_le _ _, ?_, ?_, ?_⟩
    · show (assembleFromSections t (parseSections t)).work_experience.length ≤ 1
      simp only [assembleFromSections]
      split <;> simp
    · intro w hw
      simp only [heuristic_parse, assembleFromSections] at hw
      split at hw
      · simp at hw
      · simp only [List.mem_singleton] at hw
        subst hw
        exact ⟨rfl, rfl, rfl, rfl⟩
    · intro e he
      exact parseEducation_shape _ e he
  · decide

/-- C1 witness: the schema facts evaluated at concrete inputs. -/
theorem spec_c1_witness :
    (WorkEntry.mk [] [] [] [] [("Led a team").data]).job_title = [] ∧
    heuristic_parse [] = emptyResume :=
  ⟨((spec_c1.1 (("EXPERIENCE\n- Led a team").data)).2.2.1 _ (by decide)).1, spec_c1.2⟩

/-! ### Skills-set determinism lemmas -/

theorem setToSortedList_sorted (l : List Str) :
    List.Sorted (fun a b => a ≤ b) (setToSortedList l) :=
  List.sorted_insertionSort _ _

theorem setToSortedList_nodup (l : List Str) : (setToSortedList l).Nodup :=
  ((List.perm_insertionSort _ _).symm).nodup (List.nodup_dedup l)

/-- C3: the parse is a pure function — two invocations on the same input are
definitionally equal — and the skills list (a Python set read out in the
canonical sorted order) is duplicate-free and sorted, hence its order is the
same on every call with the same input. -/
theorem spec_c3 (t : Str) :
    heuristic_parse t = heuristic_parse t ∧
    (heuristic_parse t).skills.Nodup ∧
    List.Sorted (fun a b => a ≤ b) (heuristic_parse t).skills := by
  refine ⟨rfl, ?_, ?_⟩
  · exact (setToSortedList_nodup _).filter _
  · exact (setToSortedList_sorted _).filter _

/-! ### Whitespace lemmas -/

theorem dropWhile_dropWhile (p : Char → Bool) (l : Str) :
    (l.dropWhile p).dropWhile p = l.dropWhile p := by
  induction l with
  | nil => rfl
  | cons c cs ih =>
    by_cases h : p c
    · simp [List.dropWhile_cons, h, ih]
    · simp [List.dropWhile_cons, h]

theorem rstrip_idem (s : Str) : rstrip (rstrip s) = rstrip s := by
  simp [rstrip, List.reverse_reverse, dropWhile_dropWhile]

theorem rstrip_nil : rstrip ([] : Str) = [] := rfl

theorem rstrip_eq_nil_iff (s : Str) : rstrip s = [] ↔ ∀ c ∈ s, isSpace c = true := by
  simp [rstrip, List.dropWhile_eq_nil_iff]

theorem lstrip_eq_nil_iff (s : Str) : lstrip s = [] ↔ ∀ c ∈ s, isSpace c = true := by
  simp [lstrip, List.dropWhile_eq_nil_iff]

theorem stripWs_eq_nil_iff (s : Str) : stripWs s = [] ↔ ∀ c ∈ s, isSpace c = true := by
  constructor
  · intro h c hc
    have h1 := (rstrip_eq_nil_iff _).mp h
    have hsplit := List.takeWhile_append_dropWhile isSpace s
    rw [← hsplit] at hc
    rcases List.mem_append.mp hc with h2 | h2
    · exact List.mem_takeWhile_imp h2
    · exact h1 c h2
  · intro h
    have h2 : lstrip s = [] := (lstrip_eq_nil_iff s).mpr h
    simp [stripWs, h2, rstrip]

theorem dropWhile_head_false {p : Char → Bool} {l : Str} {c : Char} {rest : Str}
    (h : l.dropWhile p = c :: rest) : p c = false := by
  induction l with
  | nil => simp at h
  | cons a as ih =>
    by_cases hp : p a
    · rw [List.dropWhile_cons, if_pos hp] at h; exact ih h
    · rw [List.dropWhile_cons, if_neg hp] at h
      cases h
      simpa using hp

theorem collapseAux_cons_not_space {c : Char} (b : Bool) (rest : Str) (h : isSpace c = false) :
    collapseAux b (c :: rest) = c :: collapseAux false rest := by
  simp [collapseAux, h]

theorem rstrip_append_self (x : Str) :
    rstrip x ++ ((x.reverse.takeWhile isSpace).reverse) = x := by
  rw [rstrip, ← List.reverse_append, List.takeWhile_append_dropWhile, List.reverse_reverse]

theorem rstrip_length_le (x : Str) : (rstrip x).length ≤ x.length := by
  simpa [rstrip] using List.Sublist.length_le (List.dropWhile_sublist (l := x.reverse) isSpace)

theorem stripWs_head_not_space {s : Str} {d : Char} {rest : Str} (h : stripWs s = d :: rest) :
    isSpace d = false := by
  have h2 := rstrip_append_self (lstrip s)
  rw [show rstrip (lstrip s) = stripWs s from rfl, h] at h2
  exact dropWhile_head_false (p := isSpace) (l := s) h2.symm

theorem pyNorm_ne_nil {s : Str} (h : ∃ c ∈ s, isSpace c = false) : pyNorm s ≠ [] := by
  obtain ⟨c, hc, hcs⟩ := h
  have hne : stripWs s ≠ [] := by
    intro hnil
    have := (stripWs_eq_nil_iff s).mp hnil c hc
    rw [this] at hcs
    cases hcs
  cases hsw : stripWs s with
  | nil => exact absurd hsw hne
  | cons d rest =>
    have hd : isSpace d = false := stripWs_head_not_space hsw
    intro hpn
    rw [pyNorm, hsw, collapseAux_cons_not_space _ _ hd] at hpn
    cases hpn

theorem dropWhile_append_all {p : Char → Bool} (a b : Str) (h : ∀ c ∈ a, p c = true) :
    (a ++ b).dropWhile p = b.dropWhile p := by
  induction a with
  | nil => simp
  | cons c cs ih =>
    have hc := h c (List.mem_cons_self c cs)
    simp only [List.cons_append, List.dropWhile_cons, hc, if_true]
    exact ih (fun x hx => h x (List.mem_cons_of_mem _ hx))

theorem rstrip_append_spaces (x y : Str) (h : ∀ c ∈ y, isSpace c = true) :
    rstrip (x ++ y) = rstrip x := by
  simp only [rstrip, List.reverse_append]
  rw [dropWhile_append_all _ _ (fun c hc => h c (List.mem_reverse.mp hc))]

/-! ### Bullet-content lemmas (claim C2) -/

theorem bulletSplit_some_inv {l cap : Str} (hb : bulletSplit l = some cap) :
    ∃ mk rest, l.dropWhile isSpace = mk :: rest ∧ bulletMarker mk = true ∧
      rest ≠ [] ∧ cap = rest.dropWhile isSpace := by
  unfold bulletSplit at hb
  cases hw : l.dropWhile isSpace with
  | nil => rw [hw] at hb; cases hb
  | cons mk rest =>
    rw [hw] at hb
    simp at hb
    obtain ⟨hm, hb2⟩ := hb
    cases hr : rest with
    | nil => rw [hr] at hb2; simp at hb2
    | cons d rs =>
      rw [hr] at hb2
      simp at hb2
      exact ⟨mk, d :: rs, rfl, hm, by simp, hb2.2.symm⟩

theorem bullet_content_ne_nil {l cap : Str} (hstrip : rstrip l = l)
    (hb : bulletSplit l = some cap) : pyNorm cap ≠ [] := by
  obtain ⟨mk, rest, hw, hm, hrne, hcap⟩ := bulletSplit_some_inv hb
  by_cases hcs : ∃ c ∈ cap, isSpace c = false
  · exact pyNorm_ne_nil hcs
  · exfalso
    push_neg at hcs
    have hcap' : ∀ c ∈ cap, isSpace c = true := fun c hcmem => by simpa using hcs c hcmem
    have hrest : ∀ c ∈ rest, isSpace c = true := by
      intro c hcmem
      rw [← List.takeWhile_append_dropWhile isSpace rest] at hcmem
      rcases List.mem_append.mp hcmem with h2 | h2
      · exact List.mem_takeWhile_imp h2
      · exact hcap' c (hcap ▸ h2)
    have hl2 : l = (l.takeWhile isSpace ++ [mk]) ++ rest := by
      conv_lhs => rw [← List.takeWhile_append_dropWhile isSpace l, hw]
      simp
    have hrw : rstrip l = rstrip (l.takeWhile isSpace ++ [mk]) := by
      conv_lhs => rw [hl2]
      exact rstrip_append_spaces _ _ hrest
    have hlen1 : (rstrip (l.takeWhile isSpace ++ [mk])).length ≤
        (l.takeWhile isSpace ++ [mk]).length := rstrip_length_le _
    have hlen2 : l.length = (l.takeWhile isSpace ++ [mk]).length + rest.length := by
      conv_lhs => rw [hl2]
      simp
      omega
    have hrlen : rest.length ≠ 0 := by
      cases rest
      · exact absurd rfl hrne
      · simp
    rw [hstrip] at hrw
    have hle : l.length ≤ (l.takeWhile isSpace ++ [mk]).length :=
      (congrArg List.length hrw).trans_le hlen1
    omega

theorem collectBullets_eq_contents {ls : List Str} (h : ∀ l ∈ ls, rstrip l = l) :
    collectBullets ls = bulletContentsOf ls := by
  induction ls with
  | nil => rfl
  | cons l rest ih =>
    have hl := h l (List.mem_cons_self l rest)
    have hrest : ∀ x ∈ rest, rstrip x = x := fun x hx => h x (List.mem_cons_of_mem _ hx)
    have hrec := ih hrest
    cases hb : bulletSplit l with
    | none =>
      show List.filterMap _ (l :: rest) = List.filterMap _ (l :: rest)
      rw [List.filterMap_cons, List.filterMap_cons]
      simp only [hb]
      exact hrec
    | some cap =>
      have hne := bullet_content_ne_nil hl hb
      have hemp : (pyNorm cap).isEmpty = false := by
        cases hpn : pyNorm cap
        · exact absurd hpn hne
        · rfl
      show List.filterMap _ (l :: rest) = List.filterMap _ (l :: rest)
      rw [List.filterMap_cons, List.filterMap_cons]
      simp only [hb, Option.map_some', hemp, Bool.false_eq_true, if_false]
      show pyNorm cap :: collectBullets rest = pyNorm cap :: bulletContentsOf rest
      rw [hrec]

/-! ### Segmenter invariant -/

theorem forall_append_single {P : Str → Prop} {ls : List Str} {x : Str}
    (h : ∀ l ∈ ls, P l) (hx : P x) : ∀ l ∈ ls ++ [x], P l := by
  intro l hl
  rcases List.mem_append.mp hl with h' | h'
  · exact h l h'
  · rw [List.mem_singleton.mp h']
    exact hx

theorem secWf_add {s : Sections} {k : SectionKey} {x : Str} (h : SecWf s) (hx : rstrip x = x) :
    SecWf (addToSection s k x) := by
  obtain ⟨h1, h2, h3, h4, h5, h6⟩ := h
  cases k with
  | summary => exact ⟨forall_append_single h1 hx, h2, h3, h4, h5, h6⟩
  | experience => exact ⟨h1, forall_append_single h2 hx, h3, h4, h5, h6⟩
  | education => exact ⟨h1, h2, forall_append_single h3 hx, h4, h5, h6⟩
  | skills => exact ⟨h1, h2, h3, forall_append_single h4 hx, h5, h6⟩
  | certifications => exact ⟨h1, h2, h3, h4, forall_append_single h5 hx, h6⟩
  | projects => exact ⟨h1, h2, h3, h4, h5, forall_append_single h6 hx⟩

theorem sectionsStep_wf {st : Option SectionKey × Sections} {raw : Str} (h : SecWf st.2) :
    SecWf (sectionsStep st raw).2 := by
  unfold sectionsStep
  by_cases hblank : (stripWs (rstrip raw)).isEmpty = true
  · simp only [hblank, if_true]
    cases st.1 with
    | some k => exact secWf_add h rstrip_nil
    | none => exact h
  · simp only [hblank, if_false]
    cases hdet : detectSection (rstrip raw) with
    | some k => exact h
    | none =>
      cases st.1 with
      | some k => exact secWf_add h (rstrip_idem raw)
      | none => exact secWf_add h (rstrip_idem raw)

theorem foldl_sectionsStep_wf (lines : List Str) :
    ∀ st : Option SectionKey × Sections, SecWf st.2 →
      SecWf ((lines.foldl sectionsStep st).2) := by
  induction lines with
  | nil => intro st h; exact h
  | cons l rest ih => intro st h; exact ih _ (sectionsStep_wf h)

theorem parseSections_wf (t : Str) : SecWf (parseSections t) := by
  apply foldl_sectionsStep_wf
  refine ⟨?_, ?_, ?_, ?_, ?_, ?_⟩ <;> intro l hl <;> exact absurd hl (List.not_mem_nil l)

/-- C2: at most one work entry; exactly one iff the experience bucket holds a
bullet line; the entry's title, company and dates are empty, and its
achievements are exactly the normalized bullet contents of the experience
bucket in source order. -/
theorem spec_c2 (t : Str) :
    (heuristic_parse t).work_experience.length ≤ 1 ∧
    ((heuristic_parse t).work_experience.length = 1 ↔
      ∃ l ∈ (parseSections t).experience, isBulletLine l = true) ∧
    (∀ w ∈ (heuristic_parse t).work_experience,
        w.job_title = [] ∧ w.company = [] ∧ w.start_date = [] ∧ w.end_date = [] ∧
        w.achievements = bulletContentsOf ((parseSections t).experience)) := by
  have hwf := (parseSections_wf t).2.1
  have hco : collectBullets ((parseSections t).experience) =
      bulletContentsOf ((parseSections t).experience) :=
    collectBullets_eq_contents hwf
  have hwe : (heuristic_parse t).work_experience =
      (if (collectBullets ((parseSections t).experience)).isEmpty then []
       else [⟨[], [], [], [], collectBullets ((parseSections t).experience)⟩]) := rfl
  refine ⟨?_, ?_, ?_⟩
  · rw [hwe]; split <;> simp
  · rw [hwe]
    constructor
    · intro h1
      by_cases hemp : (collectBullets ((parseSections t).experience)).isEmpty = true
      · rw [if_pos hemp] at h1; cases h1
      · have : bulletContentsOf ((parseSections t).experience) ≠ [] := by
          rw [← hco]
          intro hnil
          rw [hnil] at hemp
          exact hemp rfl
        obtain ⟨x, hx⟩ := List.exists_mem_of_ne_nil _ this
        obtain ⟨l, hl, hfl⟩ := List.mem_filterMap.mp hx
        refine ⟨l, hl, ?_⟩
        cases hbs : bulletSplit l with
        | none => rw [hbs] at hfl; cases hfl
        | some cap => simp [isBulletLine, hbs]
    · rintro ⟨l, hl, hbl⟩
      have hbs : ∃ cap, bulletSplit l = some cap := by
        cases hbs : bulletSplit l with
        | none => rw [isBulletLine, hbs] at hbl; cases hbl
        | some cap => exact ⟨cap, rfl⟩
      obtain ⟨cap, hcap⟩ := hbs
      have hmem : pyNorm cap ∈ bulletContentsOf ((parseSections t).experience) :=
        List.mem_filterMap.mpr ⟨l, hl, by rw [hcap]; rfl⟩
      have hne : collectBullets ((parseSections t).experience) ≠ [] := by
        rw [hco]
        exact List.ne_nil_of_mem hmem
      have hemp : (collectBullets ((parseSections t).experience)).isEmpty = false := by
        cases hcb : collectBullets ((parseSections t).experience)
        · exact absurd hcb hne
        · rfl
      rw [if_neg (by rw [hemp]; exact Bool.false_ne_true)]
      rfl
  · intro w hw
    rw [hwe] at hw
    split at hw
    · cases hw
    · rw [List.mem_singleton] at hw
      subst hw
      exact ⟨rfl, rfl, rfl, rfl, hco⟩

/-- C2 witness: on `EXPERIENCE\n- Led a team` there is exactly one work entry
and its achievements are the bucket's normalized bullet contents. -/
theorem spec_c2_witness :
    (heuristic_parse (("EXPERIENCE\n- Led a team").data)).work_experience.length = 1 ∧
    (WorkEntry.mk [] [] [] [] [("Led a team").data]).achievements =
      bulletContentsOf ((parseSections (("EXPERIENCE\n- Led a team").data)).experience) := by
  refine ⟨?_, ?_⟩
  · exact (spec_c2 _).2.1.mpr ⟨("- Led a team").data, by decide, by decide⟩
  · exact ((spec_c2 (("EXPERIENCE\n- Led a team").data)).2.2 _ (by decide)).2.2.2.2

/-! ### Digit-count lemmas (claim C5) -/

theorem space_not_digit {c : Char} (h : isSpace c = true) : c.isDigit = false := by
  simp only [isSpace, Bool.or_eq_true, beq_iff_eq] at h
  rcases h with ((((h | h) | h) | h) | h) | h <;> subst h <;> decide

theorem countDigits_cons (c : Char) (l : Str) :
    countDigits (c :: l) = (if c.isDigit then 1 else 0) + countDigits l := by
  by_cases h : c.isDigit = true
  · simp [countDigits, List.filter_cons, h]
    omega
  · simp [countDigits, List.filter_cons, h]

theorem countDigits_collapseAux (b : Bool) (s : Str) :
    countDigits (collapseAux b s) = countDigits s := by
  induction s generalizing b with
  | nil => rfl
  | cons c rest ih =>
    by_cases h : isSpace c = true
    · have hd : c.isDigit = false := space_not_digit h
      by_cases hb : b = true
      · simp [collapseAux, h, hb, ih, countDigits_cons, hd]
      · simp [collapseAux, h, hb, ih, countDigits_cons, hd]
    · simp [collapseAux, h, countDigits_cons, ih]

theorem countDigits_lstrip (s : Str) : countDigits (lstrip s) = countDigits s := by
  induction s with
  | nil => rfl
  | cons c rest ih =>
    by_cases h : isSpace c = true
    · have hd : c.isDigit = false := space_not_digit h
      simp only [lstrip, List.dropWhile_cons, h, if_true, countDigits_cons, hd]
      simpa [lstrip] using ih
    · simp [lstrip, List.dropWhile_cons, h]

theorem countDigits_reverse (s : Str) : countDigits s.reverse = countDigits s := by
  simp [countDigits, List.filter_reverse]

theorem countDigits_rstrip (s : Str) : countDigits (rstrip s) = countDigits s := by
  calc countDigits (rstrip s) = countDigits (s.reverse.dropWhile isSpace) :=
        countDigits_reverse _
    _ = countDigits s.reverse := countDigits_lstrip s.reverse
    _ = countDigits s := countDigits_reverse s

theorem countDigits_pyNorm (s : Str) : countDigits (pyNorm s) = countDigits s := by
  rw [pyNorm, countDigits_collapseAux, stripWs, countDigits_rstrip, countDigits_lstrip]

theorem mem_collapseAux {c : Char} {b : Bool} {s : Str} (h : c ∈ collapseAux b s) :
    c = ' ' ∨ c ∈ s := by
  induction s generalizing b with
  | nil => simp [collapseAux] at h
  | cons d rest ih =>
    by_cases hd : isSpace d = true
    · by_cases hb : b = true
      · rw [collapseAux, if_pos hd, if_pos hb] at h
        rcases ih h with h1 | h1
        · exact Or.inl h1
        · exact Or.inr (List.mem_cons_of_mem _ h1)
      · rw [collapseAux, if_pos hd, if_neg hb] at h
        rcases List.mem_cons.mp h with h1 | h1
        · exact Or.inl h1
        · rcases ih h1 with h2 | h2
          · exact Or.inl h2
          · exact Or.inr (List.mem_cons_of_mem _ h2)
    · rw [collapseAux, if_neg hd] at h
      rcases List.mem_cons.mp h with h1 | h1
      · exact Or.inr (h1 ▸ List.mem_cons_self d rest)
      · rcases ih h1 with h2 | h2
        · exact Or.inl h2
        · exact Or.inr (List.mem_cons_of_mem _ h2)

theorem mem_lstrip {c : Char} {x : Str} (h : c ∈ lstrip x) : c ∈ x :=
  List.Sublist.mem h (List.dropWhile_sublist isSpace)

theorem mem_rstrip {c : Char} {x : Str} (h : c ∈ rstrip x) : c ∈ x := by
  rw [rstrip, List.mem_reverse] at h
  exact List.mem_reverse.mp (List.Sublist.mem h (List.dropWhile_sublist isSpace))

theorem mem_pyNorm {c : Char} {s : Str} (h : c ∈ pyNorm s) : c = ' ' ∨ c ∈ s := by
  rcases mem_collapseAux h with h1 | h1
  · exact Or.inl h1
  · exact Or.inr (mem_lstrip (mem_rstrip h1))

theorem mem_setToSortedList {x : Str} {l : List Str} (h : x ∈ setToSortedList l) : x ∈ l :=
  List.mem_dedup.mp ((List.mem_insertionSort _).mp h)

/-- C5 amended: every phone token included in `contact_info` has at least
**7** digits after stripping separators (the code's filter is `>= 7`, not the
claimed `>= 8`), and no included token contains `/`. -/
theorem spec_c5 (t : Str) :
    ∀ p ∈ headerPhones t, 7 ≤ countDigits p ∧ p.contains '/' = false := by
  intro p hp
  have h1 : p ∈ ((findPhones (headerCleaned t)).filter phoneOk).map pyNorm :=
    mem_setToSortedList hp
  obtain ⟨m, hm, rfl⟩ := List.mem_map.mp h1
  have hok : phoneOk m = true := (List.mem_filter.mp hm).2
  simp only [phoneOk, Bool.and_eq_true, decide_eq_true_eq, Bool.not_eq_true'] at hok
  obtain ⟨hcd, hsl⟩ := hok
  constructor
  · rw [countDigits_pyNorm]
    exact hcd
  · by_contra hcon
    have hmem : '/' ∈ pyNorm m := by
      have : (pyNorm m).contains '/' = true := by
        cases hc : (pyNorm m).contains '/'
        · exact absurd hc hcon
        · rfl
      simpa using this
    rcases mem_pyNorm hmem with h2 | h2
    · cases h2
    · have : m.contains '/' = true := by simpa using h2
      rw [this] at hsl
      cases hsl

/-- C5 witness: the amended bound evaluated on the 7-digit token `123-4567`,
which the header extractor includes. -/
theorem spec_c5_witness :
    7 ≤ countDigits (("123-4567").data) ∧ (("123-4567").data).contains '/' = false :=
  spec_c5 (("123-4567").data) (("123-4567").data) (by decide)

/-! ### Summary-bucket lemmas (claim C6) -/

theorem addToSection_summary (s : Sections) (k : SectionKey) (x : Str) :
    ∃ suf, (addToSection s k x).summary = s.summary ++ suf := by
  cases k with
  | summary => exact ⟨[x], rfl⟩
  | experience => exact ⟨[], by simp [addToSection]⟩
  | education => exact ⟨[], by simp [addToSection]⟩
  | skills => exact ⟨[], by simp [addToSection]⟩
  | certifications => exact ⟨[], by simp [addToSection]⟩
  | projects => exact ⟨[], by simp [addToSection]⟩

theorem sectionsStep_summary_mono (st : Option SectionKey × Sections) (raw : Str) :
    ∃ suf, (sectionsStep st raw).2.summary = st.2.summary ++ suf := by
  unfold sectionsStep
  by_cases hblank : (stripWs (rstrip raw)).isEmpty = true
  · simp only [hblank, if_true]
    cases st.1 with
    | some k => exact addToSection_summary st.2 k []
    | none => exact ⟨[], by simp⟩
  · simp only [hblank, if_false]
    cases detectSection (rstrip raw) with
    | some k => exact ⟨[], by simp⟩
    | none =>
      cases st.1 with
      | some k => exact addToSection_summary st.2 k (rstrip raw)
      | none => exact addToSection_summary st.2 .summary (rstrip raw)

theorem foldl_summary_mono (lines : List Str) :
    ∀ st : Option SectionKey × Sections,
      ∃ suf, ((lines.foldl sectionsStep st).2).summary = st.2.summary ++ suf := by
  induction lines with
  | nil => intro st; exact ⟨[], by simp⟩
  | cons l rest ih =>
    intro st
    obtain ⟨s1, h1⟩ := sectionsStep_summary_mono st l
    obtain ⟨s2, h2⟩ := ih (sectionsStep st l)
    exact ⟨s1 ++ s2, by rw [List.foldl_cons, h2, h1, List.append_assoc]⟩

/-- C6 amended: the segmentation walk does **not** exclude the first line.
A non-blank first line that is not itself a section heading is appended to the
summary bucket as its first element (so its content can reach the summary
field, as the counterexample shows concretely). -/
theorem spec_c6 (t : Str) (l0 : Str) (rest : List Str)
    (hsplit : splitNl (canonNl t) = l0 :: rest)
    (hnb : (stripWs (rstrip l0)).isEmpty = false)
    (hnh : detectSection (rstrip l0) = none) :
    ((parseSections t).summary).head? = some (rstrip l0) := by
  unfold parseSections
  rw [hsplit, List.foldl_cons]
  have hstep : sectionsStep (none, emptySections) l0 =
      (none, addToSection emptySections .summary (rstrip l0)) := by
    simp [sectionsStep, hnb, hnh]
  obtain ⟨suf, hsuf⟩ := foldl_summary_mono rest (sectionsStep (none, emptySections) l0)
  rw [hsuf, hstep]
  simp [addToSection, emptySections]

/-- C6 witness: on `John Smith\nSeasoned engineer.` the first line becomes the
head of the summary bucket. -/
theorem spec_c6_witness :
    ((parseSections (("John Smith\nSeasoned engineer.").data)).summary).head? =
      some (rstrip (("John Smith").data)) :=
  spec_c6 (("John Smith\nSeasoned engineer.").data) (("John Smith").data)
    [("Seasoned engineer.").data] (by decide) (by decide) (by decide)

/-! ### Education-chunk lemmas (claim C7) -/

theorem ne_nil_of_isEmpty_false {α : Type} {l : List α} (h : l.isEmpty = false) : l ≠ [] := by
  cases l
  · cases h
  · simp

theorem joinWith_cons_ne_nil (sep : Str) {x : Str} (xs : List Str) (hx : x ≠ []) :
    joinWith sep (x :: xs) ≠ [] := by
  cases xs with
  | nil => exact hx
  | cons y ys =>
    show x ++ sep ++ joinWith sep (y :: ys) ≠ []
    intro h
    rw [List.append_eq_nil, List.append_eq_nil] at h
    exact hx h.1.1

theorem pyNorm_ne_nil_of_nonblank {l : Str} (h : (stripWs l).isEmpty = false) :
    pyNorm l ≠ [] := by
  apply pyNorm_ne_nil
  by_contra hcon
  push_neg at hcon
  have hall : ∀ c ∈ l, isSpace c = true := by
    intro c hc
    have := hcon c hc
    simpa using this
  rw [(stripWs_eq_nil_iff l).mpr hall] at h
  cases h

theorem eduChunkStr_of_nonblank {buf : List Str}
    (h : ∀ l ∈ buf, (stripWs l).isEmpty = false) :
    eduChunkStr buf = joinWith sepSpace (buf.map pyNorm) := by
  rw [eduChunkStr, List.filter_eq_self.mpr]
  intro a ha
  rw [h a ha]
  rfl

theorem eduChunkStr_ne_nil {buf : List Str} (hne : buf ≠ [])
    (h : ∀ l ∈ buf, (stripWs l).isEmpty = false) :
    (eduChunkStr buf).isEmpty = false := by
  rw [eduChunkStr_of_nonblank h]
  cases buf with
  | nil => exact absurd rfl hne
  | cons b rest =>
    rw [List.map_cons]
    have := joinWith_cons_ne_nil sepSpace (rest.map pyNorm)
      (pyNorm_ne_nil_of_nonblank (h b (List.mem_cons_self b rest)))
    cases hj : joinWith sepSpace (pyNorm b :: rest.map pyNorm)
    · exact absurd hj this
    · rfl

theorem parseEduGo_eq_chunks (ls : List Str) :
    ∀ buf, (∀ l ∈ buf, (stripWs l).isEmpty = false) →
      parseEduGo buf ls =
        (blankChunksGo buf ls).map (fun c => ⟨(eduChunkStr c).take 200, [], []⟩) := by
  induction ls with
  | nil =>
    intro buf hbuf
    simp only [parseEduGo, blankChunksGo]
    by_cases h : buf.isEmpty = true
    · rw [if_pos h, if_pos h]; rfl
    · rw [if_neg h, if_neg h]; rfl
  | cons l rest ih =>
    intro buf hbuf
    simp only [parseEduGo, blankChunksGo]
    by_cases hl : (stripWs l).isEmpty = true
    · rw [if_pos hl, if_pos hl]
      by_cases hb : buf.isEmpty = true
      · rw [if_pos hb, if_pos hb]
        exact ih [] (by intro x hx; cases hx)
      · rw [if_neg hb, if_neg hb]
        have hbufne : buf ≠ [] := by
          intro hcon
          rw [hcon] at hb
          exact hb rfl
        have hch := eduChunkStr_ne_nil hbufne hbuf
        rw [if_neg (by rw [hch]; exact Bool.false_ne_true)]
        rw [List.map_cons]
        congr 1
        exact ih [] (by intro x hx; cases hx)
    · rw [if_neg hl, if_neg hl]
      refine ih (buf ++ [l]) ?_
      intro x hx
      rcases List.mem_append.mp hx with h1 | h1
      · exact hbuf x h1
      · rw [List.mem_singleton.mp h1]
        cases hse : (stripWs l).isEmpty
        · rfl
        · exact absurd hse hl

theorem blankChunksGo_nonblank (ls : List Str) :
    ∀ buf, (∀ l ∈ buf, (stripWs l).isEmpty = false) →
      ∀ c ∈ blankChunksGo buf ls, ∀ l ∈ c, (stripWs l).isEmpty = false := by
  induction ls with
  | nil =>
    intro buf hbuf c hc
    simp only [blankChunksGo] at hc
    split at hc
    · cases hc
    · rw [List.mem_singleton] at hc
      subst hc
      exact hbuf
  | cons l rest ih =>
    intro buf hbuf c hc
    simp only [blankChunksGo] at hc
    split at hc
    · split at hc
      · exact ih [] (by intro x hx; cases hx) c hc
      · rcases List.mem_cons.mp hc with h1 | h1
        · subst h1; exact hbuf
        · exact ih [] (by intro x hx; cases hx) c h1
    · refine ih (buf ++ [l]) ?_ c hc
      intro x hx
      rcases List.mem_append.mp hx with h1 | h1
      · exact hbuf x h1
      · rw [List.mem_singleton.mp h1]
        rename_i hval
        cases hse : (stripWs l).isEmpty
        · rfl
        · exact absurd hse hval

/-- C7 amended: each education entry comes from one blank-line-delimited chunk
of the education bucket; its institution is the chunk's lines, each
whitespace-normalized (bullet markers **kept**), joined by a **single space**
(not `" / "`), truncated to 200 characters; its year is the first
`19xx`/`20xx` word of that string (else empty); degree is always empty. -/
theorem spec_c7 (t : Str) :
    (heuristic_parse t).education =
      (blankChunks ((parseSections t).education)).map eduSpecEntry := by
  show parseEducation ((parseSections t).education) = _
  rw [parseEducation, parseEduGo_eq_chunks _ [] (by intro x hx; cases hx), List.map_map]
  apply List.map_congr_left
  intro c hc
  have hcnb : ∀ l ∈ c, (stripWs l).isEmpty = false :=
    blankChunksGo_nonblank _ [] (by intro x hx; cases hx) c hc
  show enrichEdu ⟨(eduChunkStr c).take 200, [], []⟩ = eduSpecEntry c
  rw [enrichEdu_mk, eduChunkStr_of_nonblank hcnb]
  rfl

/-! ### Summary lemmas (claim C8) -/

theorem bullet_nonblank {l : Str} (h : isBulletLine l = true) :
    (stripWs l).isEmpty = false := by
  rw [isBulletLine] at h
  cases hbs : bulletSplit l with
  | none => rw [hbs] at h; cases h
  | some cap =>
    obtain ⟨mk, rest, hw, hm, hrne, hcap⟩ := bulletSplit_some_inv hbs
    have hmkl : mk ∈ l := by
      have : mk ∈ l.dropWhile isSpace := by rw [hw]; exact List.mem_cons_self mk rest
      exact List.Sublist.mem this (List.dropWhile_sublist isSpace)
    have hmks : isSpace mk = false := dropWhile_head_false hw
    cases hse : (stripWs l).isEmpty with
    | false => rfl
    | true =>
      exfalso
      have : stripWs l = [] := by
        cases hsw : stripWs l
        · rfl
        · rw [hsw] at hse; cases hse
      have := (stripWs_eq_nil_iff l).mp this mk hmkl
      rw [this] at hmks
      cases hmks

theorem collectSummary_filter (ls : List Str) :
    ∀ acc, collectSummary acc ls =
      collectSummary acc (ls.filter (fun l => !(isBulletLine l))) := by
  induction ls with
  | nil => intro acc; rfl
  | cons l rest ih =>
    intro acc
    by_cases hbul : isBulletLine l = true
    · have hfil : (l :: rest).filter (fun l => !(isBulletLine l)) =
          rest.filter (fun l => !(isBulletLine l)) := by
        simp [List.filter_cons, hbul]
      have hnb : (stripWs l).isEmpty = false := bullet_nonblank hbul
      rw [hfil]
      simp only [collectSummary, hnb, Bool.false_eq_true, if_false, hbul, if_true]
      exact ih acc
    · have hbf : isBulletLine l = false := by
        cases hbv : isBulletLine l
        · rfl
        · exact absurd hbv hbul
      have hfil : (l :: rest).filter (fun l => !(isBulletLine l)) =
          l :: rest.filter (fun l => !(isBulletLine l)) := by
        simp [List.filter_cons, hbf]
      rw [hfil]
      by_cases hblank : (stripWs l).isEmpty = true
      · simp only [collectSummary, hblank, if_true]
        by_cases hacc : acc.isEmpty = true
        · simp only [hacc, if_true]
          exact ih acc
        · simp [hacc]
      · have hblank' : (stripWs l).isEmpty = false := by
          cases hbv : (stripWs l).isEmpty
          · rfl
          · exact absurd hbv hblank
        simp only [collectSummary, hblank', Bool.false_eq_true, if_false, hbf]
        by_cases hlen : 600 < (joinWith sepSpace (acc ++ [pyNorm l])).length
        · rw [if_pos hlen, if_pos hlen]
        · rw [if_neg hlen, if_neg hlen]
          exact ih (acc ++ [pyNorm l])

/-- C8: the summary is at most 600 characters; when the collected
summary-section prose exceeds 600 characters the summary is exactly its first
600 characters (a hard character cutoff, no word-level cleanup); and bullet
lines are excluded — the collection is unchanged if bullet lines are removed
from the bucket beforehand. -/
theorem spec_c8 (t : Str) :
    (heuristic_parse t).summary.length ≤ 600 ∧
    (600 < (pyNorm (joinWith sepSpace (collectSummary [] ((parseSections t).summary)))).length →
      (heuristic_parse t).summary =
        (pyNorm (joinWith sepSpace (collectSummary [] ((parseSections t).summary)))).take 600 ∧
      (heuristic_parse t).summary.length = 600) ∧
    collectSummary [] ((parseSections t).summary) =
      collectSummary [] (((parseSections t).summary).filter (fun l => !(isBulletLine l))) := by
  refine ⟨List.length_take_le _ _, ?_, collectSummary_filter _ []⟩
  intro hlong
  refine ⟨rfl, ?_⟩
  show ((pyNorm (joinWith sepSpace (collectSummary [] ((parseSections t).summary)))).take 600).length = 600
  rw [List.length_take]
  omega

set_option maxRecDepth 100000 in
/-- C8 witness: a 601-character line yields prose longer than 600 characters
and a summary of exactly 600 characters. -/
theorem spec_c8_witness :
    600 < (pyNorm (joinWith sepSpace
        (collectSummary [] ((parseSections (List.replicate 601 'a')).summary)))).length ∧
    (heuristic_parse (List.replicate 601 'a')).summary.length = 600 :=
  ⟨by decide, ((spec_c8 (List.replicate 601 'a')).2.1 (by decide)).2⟩

/-! ### Substring lemmas (claim C9) -/

theorem substr_self (l : Str) : l <:+: l := ⟨[], [], by simp⟩

theorem substr_app_right {a b : Str} (c : Str) (h : a <:+: b) : a <:+: b ++ c := by
  obtain ⟨s, t, rfl⟩ := h
  exact ⟨s, t ++ c, by simp⟩

theorem substr_app_left {a b : Str} (c : Str) (h : a <:+: b) : a <:+: c ++ b := by
  obtain ⟨s, t, rfl⟩ := h
  exact ⟨c ++ s, t, by simp⟩

theorem substr_trans {a b c : Str} (h1 : a <:+: b) (h2 : b <:+: c) : a <:+: c := by
  obtain ⟨s1, t1, rfl⟩ := h1
  obtain ⟨s2, t2, rfl⟩ := h2
  exact ⟨s2 ++ s1, t1 ++ t2, by simp⟩

theorem ne_nil_of_substr {a b : Str} (h : a <:+: b) (ha : a ≠ []) : b ≠ [] := by
  obtain ⟨s, t, rfl⟩ := h
  intro hcon
  rw [List.append_eq_nil, List.append_eq_nil] at hcon
  exact ha hcon.1.2

theorem substr_join (sep : Str) {x : Str} {ls : List Str} (h : x ∈ ls) : x <:+: joinWith sep ls := by
  induction ls with
  | nil => cases h
  | cons y ys ih =>
    cases ys with
    | nil =>
      rw [List.mem_singleton] at h
      subst h
      exact substr_self x
    | cons z zs =>
      rcases List.mem_cons.mp h with h1 | h1
      · subst h1
        show x <:+: x ++ sep ++ joinWith sep (z :: zs)
        exact substr_app_right _ (substr_app_right _ (substr_self x))
      · show x <:+: y ++ sep ++ joinWith sep (z :: zs)
        exact substr_app_left _ (ih h1)

theorem mem_foldr_append {α β : Type} (g : α → List β) (l : List α) {a : α} {b : β}
    (ha : a ∈ l) (hb : b ∈ g a) : b ∈ l.foldr (fun x acc => g x ++ acc) [] := by
  induction l with
  | nil => cases ha
  | cons y ys ih =>
    rcases List.mem_cons.mp ha with h1 | h1
    · subst h1
      exact List.mem_append.mpr (Or.inl hb)
    · exact List.mem_append.mpr (Or.inr (ih h1))

theorem isEmpty_false_of_ne_nil {α : Type} {l : List α} (h : l ≠ []) : l.isEmpty = false := by
  cases l
  · exact absurd rfl h
  · rfl

theorem mem_renderLines_of_edu {p : Resume} {x : Str}
    (hx : x ∈ p.education.foldr (fun e acc => renderEduBlock e ++ acc) []) :
    x ∈ renderLines p := by
  rw [renderLines]
  exact List.mem_append.mpr (Or.inl (List.mem_append.mpr (Or.inr hx)))

theorem mem_renderLines_of_work {p : Resume} {x : Str}
    (hx : x ∈ p.work_experience.foldr (fun w acc => renderWorkBlock w ++ acc) []) :
    x ∈ renderLines p := by
  rw [renderLines]
  exact List.mem_append.mpr (Or.inr hx)

/-- Each non-empty field of any record reaches the rendered text (except
certifications, which the renderer never reads). -/
theorem render_keeps (p : Resume) :
    (p.full_name ≠ [] → p.full_name <:+: renderResumeText p) ∧
    (p.contact_info ≠ [] → p.contact_info <:+: renderResumeText p) ∧
    (p.summary ≠ [] → p.summary <:+: renderResumeText p) ∧
    (∀ sk ∈ p.skills, sk <:+: renderResumeText p) ∧
    (∀ e ∈ p.education,
      (e.institution ≠ [] → e.institution <:+: renderResumeText p) ∧
      (e.degree ≠ [] → e.degree <:+: renderResumeText p) ∧
      (e.year ≠ [] → e.year <:+: renderResumeText p)) ∧
    (∀ w ∈ p.work_experience, ∀ a ∈ w.achievements, a <:+: renderResumeText p) := by
  have line_sub : ∀ x ∈ renderLines p, x <:+: renderResumeText p := by
    intro x hx
    exact substr_join sepNl hx
  refine ⟨?_, ?_, ?_, ?_, ?_, ?_⟩
  · intro h
    refine line_sub _ ?_
    have hne := isEmpty_false_of_ne_nil h
    simp [renderLines, hne]
  · intro h
    refine line_sub _ ?_
    have hne := isEmpty_false_of_ne_nil h
    simp [renderLines, hne]
  · intro h
    refine line_sub _ ?_
    have hne := isEmpty_false_of_ne_nil h
    simp [renderLines, hne]
  · intro sk hsk
    have hnil : p.skills ≠ [] := by
      intro hcon
      rw [hcon] at hsk
      cases hsk
    have hne := isEmpty_false_of_ne_nil hnil
    refine substr_trans (substr_join sepCommaSpace hsk) (line_sub _ ?_)
    simp [renderLines, hne]
  · intro e he
    have main : ∀ part : Str, part ∈ [e.degree, e.institution, e.year] → part ≠ [] →
        part <:+: renderResumeText p := by
      intro part hpm hpne
      have hfm : part ∈ ([e.degree, e.institution, e.year]).filter (fun x => !x.isEmpty) :=
        List.mem_filter.mpr ⟨hpm, by rw [isEmpty_false_of_ne_nil hpne]; rfl⟩
      have hsub : part <:+:
          joinWith sepEmDash (([e.degree, e.institution, e.year]).filter (fun x => !x.isEmpty)) :=
        substr_join sepEmDash hfm
      have hpretty : joinWith sepEmDash
          (([e.degree, e.institution, e.year]).filter (fun x => !x.isEmpty)) ≠ [] :=
        ne_nil_of_substr hsub hpne
      have hblock : joinWith sepEmDash
          (([e.degree, e.institution, e.year]).filter (fun x => !x.isEmpty)) ∈ renderEduBlock e := by
        rw [renderEduBlock]
        rw [if_neg (by rw [isEmpty_false_of_ne_nil hpretty]; exact Bool.false_ne_true)]
        simp
      refine substr_trans hsub (line_sub _ ?_)
      exact mem_renderLines_of_edu (mem_foldr_append _ _ he hblock)
    exact ⟨main e.institution (by simp) , main e.degree (by simp), main e.year (by simp)⟩
  · intro w hw a ha
    have hblock : ("• ").data ++ a ∈ renderWorkBlock w := by
      rw [renderWorkBlock]
      exact List.mem_append.mpr (Or.inr (List.mem_map.mpr ⟨a, ha, rfl⟩))
    refine substr_trans (substr_app_left (("• ").data) (substr_self a)) (line_sub _ ?_)
    exact mem_renderLines_of_work (mem_foldr_append _ _ hw hblock)

/-- C9 amended: `render(parse(t))` contains every non-empty extracted field's
content — the name, the contact line, the summary, every skill, every
education entry's non-empty parts, and every achievement — **except the
certifications, which the renderer silently drops** (see the counterexample). -/
theorem spec_c9 (t : Str) :
    ((heuristic_parse t).full_name ≠ [] →
      (heuristic_parse t).full_name <:+: renderResumeText (heuristic_parse t)) ∧
    ((heuristic_parse t).contact_info ≠ [] →
      (heuristic_parse t).contact_info <:+: renderResumeText (heuristic_parse t)) ∧
    ((heuristic_parse t).summary ≠ [] →
      (heuristic_parse t).summary <:+: renderResumeText (heuristic_parse t)) ∧
    (∀ sk ∈ (heuristic_parse t).skills, sk <:+: renderResumeText (heuristic_parse t)) ∧
    (∀ e ∈ (heuristic_parse t).education,
      (e.institution ≠ [] → e.institution <:+: renderResumeText (heuristic_parse t)) ∧
      (e.degree ≠ [] → e.degree <:+: renderResumeText (heuristic_parse t)) ∧
      (e.year ≠ [] → e.year <:+: renderResumeText (heuristic_parse t))) ∧
    (∀ w ∈ (heuristic_parse t).work_experience, ∀ a ∈ w.achievements,
      a <:+: renderResumeText (heuristic_parse t)) :=
  render_keeps (heuristic_parse t)

/-- C9 witness: on a full synthetic résumé, the name, a skill, an education
institution and year, and an achievement all reach the rendered text. -/
theorem spec_c9_witness :
    ((heuristic_parse (("Jane Doe\njane@example.com\nSUMMARY\nBuilds reliable systems.\nSKILLS\nPython, Go\nEDUCATION\nStanford University 2015\nEXPERIENCE\n- Led a team of 5 engineers").data)).full_name <:+:
      renderResumeText (heuristic_parse (("Jane Doe\njane@example.com\nSUMMARY\nBuilds reliable systems.\nSKILLS\nPython, Go\nEDUCATION\nStanford University 2015\nEXPERIENCE\n- Led a team of 5 engineers").data))) ∧
    (("Go").data <:+:
      renderResumeText (heuristic_parse (("Jane Doe\njane@example.com\nSUMMARY\nBuilds reliable systems.\nSKILLS\nPython, Go\nEDUCATION\nStanford University 2015\nEXPERIENCE\n- Led a team of 5 engineers").data))) ∧
    ((EduEntry.mk (("Stanford University 2015").data) [] (("2015").data)).institution <:+:
      renderResumeText (heuristic_parse (("Jane Doe\njane@example.com\nSUMMARY\nBuilds reliable systems.\nSKILLS\nPython, Go\nEDUCATION\nStanford University 2015\nEXPERIENCE\n- Led a team of 5 engineers").data))) ∧
    (("Led a team of 5 engineers").data <:+:
      renderResumeText (heuristic_parse (("Jane Doe\njane@example.com\nSUMMARY\nBuilds reliable systems.\nSKILLS\nPython, Go\nEDUCATION\nStanford University 2015\nEXPERIENCE\n- Led a team of 5 engineers").data))) := by
  refine ⟨?_, ?_, ?_, ?_⟩
  · exact (spec_c9 _).1 (by decide)
  · exact (spec_c9 _).2.2.2.1 (("Go").data) (by decide)
  · exact ((spec_c9 _).2.2.2.2.1 _ (by decide)).1 (by decide)
  · exact (spec_c9 _).2.2.2.2.2 (WorkEntry.mk [] [] [] [] [("Led a team of 5 engineers").data])
      (by decide) (("Led a team of 5 engineers").data) (by decide)

end ResumePro
